import Mathlib

/-!
Shallow embedding of the conserved-stretch window scanner of
`src/scripts/04_find_conserved_stretches.py`.

Sequences are lists of characters; an alignment is the list of its rows.
Scores are rationals (the Python floats hold exact small ratios here, and the
spec states the score formulas as exact arithmetic). Window coordinates are
integers, since the script computes `i+1` and `i+window_size` with Python
integers and a negative width would produce negative coordinates.
-/

namespace FluScan

/-- Predicate for the symbols the script keeps when counting: the test
`aa not in ['-', 'X', 'B', 'J', 'Z']` on line 32 of the script. -/
def informativeB (c : Char) : Bool :=
  !((['-', 'X', 'B', 'J', 'Z'] : List Char).contains c)

/-- Value `max(counts.values())` where `counts` maps each distinct symbol of
`l` to its number of occurrences in `l` (lines 30-34 of the script). -/
def maxCount (l : List Char) : Nat :=
  (l.dedup.map (fun c => l.count c)).foldr max 0

/-- Value `sum(counts.values())` for the same `counts` dictionary. -/
def sumCounts (l : List Char) : Nat :=
  (l.dedup.map (fun c => l.count c)).sum

/-- Per-column conservation: `max(counts.values()) / sum(counts.values()) if
counts else 0`, with `counts` built over the informative symbols of the
column (lines 30-34 of the script). -/
def colScore (column : List Char) : ℚ :=
  if column.filter informativeB = [] then 0
  else (maxCount (column.filter informativeB) : ℚ) /
       (sumCounts (column.filter informativeB) : ℚ)

/-- Alignment length as Biopython's `get_alignment_length`: the maximum row
length (equal to the common length on a well-formed alignment). -/
def alnLength (rows : List (List Char)) : Nat :=
  (rows.map List.length).foldr max 0

/-- Column `j` of the alignment, as Biopython's `aln[:, j]`: the `j`-th symbol
of each row (rows too short to have one contribute nothing; on a well-formed
alignment every row contributes). -/
def column (rows : List (List Char)) (j : Nat) : List Char :=
  rows.filterMap (fun r => r.get? j)

/-- Score of the window starting at 0-based column `i`: the inner loop
`for j in range(i, i+window_size)` collects the column scores and the script
divides their sum by `window_size` (lines 27-36). -/
def windowScore (rows : List (List Char)) (window_size : Int) (i : Nat) : ℚ :=
  ((List.range' i window_size.toNat).map (fun j => colScore (column rows j))).sum
    / (window_size : ℚ)

/-- Unsorted contents of `scores`: one triple `(avg_cons, i+1, i+window_size)`
per loop index `i in range(aln_length - window_size + 1)` (lines 26-37). -/
def windowTriples (rows : List (List Char)) (window_size : Int) :
    List (ℚ × Int × Int) :=
  (List.range ((alnLength rows : Int) - window_size + 1).toNat).map
    (fun i => (windowScore rows window_size i, (i : Int) + 1, (i : Int) + window_size))

/-- Strict lexicographic order on the `(score, start, end)` triples, the order
Python uses to compare the tuples in `sorted`. -/
def lexLtP (a b : ℚ × Int × Int) : Prop :=
  a.1 < b.1 ∨ (a.1 = b.1 ∧ (a.2.1 < b.2.1 ∨ (a.2.1 = b.2.1 ∧ a.2.2 < b.2.2)))

instance (a b : ℚ × Int × Int) : Decidable (lexLtP a b) := by
  unfold lexLtP; infer_instance

/-- Boolean form of `lexLtP`, used by the sort. -/
def lexLt (a b : ℚ × Int × Int) : Bool :=
  decide (lexLtP a b)

/-- Insertion step of the descending sort: `x` moves past every strictly
larger element and lands before the first element not above it. -/
def insertDesc (x : ℚ × Int × Int) : List (ℚ × Int × Int) → List (ℚ × Int × Int)
  | [] => [x]
  | h :: t => if lexLt x h then h :: insertDesc x t else x :: h :: t

/-- Model of Python's `sorted(scores, reverse=True)` (line 38): the descending
lexicographic arrangement of the triples. On the scanner's triples any two
distinct entries compare strictly (their starts differ), so every correct sort
produces this same list and stability is immaterial. -/
def sortDesc : List (ℚ × Int × Int) → List (ℚ × Int × Int)
  | [] => []
  | h :: t => insertDesc h (sortDesc t)

/-- Runtime failure the script can actually raise while scoring: the division
`sum(window_conservation) / window_size` with a zero width. -/
inductive PyError
  | zeroDivisionError
  deriving DecidableEq, Repr

/-- Embedding of `compute_mean_conservation(aln, window_size)` (lines 23-38).
With `window_size = 0` the first executed division `avg_cons =
sum(window_conservation) / window_size` raises `ZeroDivisionError`; the loop
body executes whenever `range(aln_length - window_size + 1)` is nonempty.
Otherwise the function returns `sorted(scores, reverse=True)`. -/
def compute_mean_conservation (rows : List (List Char)) (window_size : Int) :
    Except PyError (List (ℚ × Int × Int)) :=
  if window_size = 0 ∧ ((alnLength rows : Int) - window_size + 1).toNat ≠ 0 then
    .error .zeroDivisionError
  else
    .ok (sortDesc (windowTriples rows window_size))

/-- Modelled from the spec: the script delegates per-window consensus to the
third-party routine `Bio.Align.AlignInfo.SummaryInfo.dumb_consensus`, whose
source is not part of this repository. Per the spec, the majority informative
symbol of a column is the most frequent symbol of the informative subset,
ties resolved deterministically by the first symbol encountered in a fixed
iteration order; a column with no informative symbols has none. -/
def majoritySymbol (col : List Char) : Option Char :=
  (col.filter informativeB).dedup.find?
    (fun c => (col.filter informativeB).count c == maxCount (col.filter informativeB))

/-- Modelled from the spec: one consensus position. The majority informative
symbol is emitted when `count(majority_symbol)/count(informative_symbols) >=
threshold`, else the ambiguous placeholder; a column with no informative
symbols emits the ambiguous placeholder (the spec leaves the empty-column
policy open and directs choosing and documenting a placeholder). -/
def consensusCol (threshold : ℚ) (ambiguous : Char) (col : List Char) : Char :=
  match majoritySymbol col with
  | none => ambiguous
  | some c =>
      if threshold ≤ ((col.filter informativeB).count c : ℚ) /
          ((col.filter informativeB).length : ℚ) then c
      else ambiguous

/-- Modelled from the spec: the consensus of an alignment is the ordered
concatenation of the per-column consensus symbols, one per column. -/
def dumb_consensus (rows : List (List Char)) (threshold : ℚ) (ambiguous : Char) :
    List Char :=
  (List.range (alnLength rows)).map (fun j => consensusCol threshold ambiguous (column rows j))

/-- Column slice `aln[:, a:b]` used on line 68 of the script: each row is
restricted to positions `[a, b)`. -/
def sliceCols (rows : List (List Char)) (a b : Nat) : List (List Char) :=
  rows.map (fun r => (r.drop a).take (b - a))

/-- Consensus record the script writes for the window reported as
`(start, end)` (1-based inclusive): `dumb_consensus` applied to
`aln[:, start-1:end]` with threshold 0.7 and ambiguous symbol `X`
(lines 67-72 of the script). -/
def window_consensus (rows : List (List Char)) (s e : Int) : List Char :=
  dumb_consensus (sliceCols rows (s - 1).toNat e.toNat) (7/10) 'X'

/-- Whole observable run of the script's core on one alignment and width:
the ranked `(score, start, end)` triples paired with the consensus sequences
derived for them in ranked order (`main`, lines 55-73, I/O elided). -/
def run_scanner (rows : List (List Char)) (window_size : Int) :
    Except PyError (List (ℚ × Int × Int) × List (List Char)) :=
  match compute_mean_conservation rows window_size with
  | .error e => .error e
  | .ok scores => .ok (scores, scores.map (fun t => window_consensus rows t.2.1 t.2.2))

/-! ### Counting lemmas for the per-column score -/

/-- Every member of a list of naturals is bounded by its `foldr max 0`. -/
lemma le_foldr_max {x : Nat} {l : List Nat} (hx : x ∈ l) : x ≤ l.foldr max 0 := by
  induction l with
  | nil => cases hx
  | cons a t ih =>
    rcases List.mem_cons.mp hx with h | h
    · subst h; exact le_max_left _ _
    · exact le_trans (ih h) (le_max_right _ _)

/-- The `foldr max 0` of a list of naturals is zero or a member. -/
lemma foldr_max_mem (l : List Nat) : l.foldr max 0 = 0 ∨ l.foldr max 0 ∈ l := by
  induction l with
  | nil => exact Or.inl rfl
  | cons a t ih =>
    rcases le_total (t.foldr max 0) a with h | h
    · right
      simp only [List.foldr_cons, max_eq_left h]
      exact List.mem_cons_self a t
    · rcases ih with h0 | hm
      · left
        simp only [List.foldr_cons, max_eq_right h]
        exact h0
      · right
        simp only [List.foldr_cons, max_eq_right h]
        exact List.mem_cons_of_mem a hm

/-- The `foldr max 0` of a list of naturals is bounded by its sum. -/
lemma foldr_max_le_sum (l : List Nat) : l.foldr max 0 ≤ l.sum := by
  induction l with
  | nil => exact le_refl 0
  | cons a t ih => simp only [List.foldr_cons, List.sum_cons]; omega

/-- Summing the indicator of equality with `a` over a list counts `a`. -/
lemma sum_map_ite_eq (a : Char) (l : List Char) :
    (l.map (fun c => if c = a then 1 else 0)).sum = l.count a := by
  induction l with
  | nil => rfl
  | cons b t ih =>
    by_cases hb : b = a <;>
      simp [List.count_cons, ih, hb, Nat.add_comm]

/-- Summation distributes over pointwise addition of mapped functions. -/
lemma sum_map_add_distrib (f g : Char → Nat) (l : List Char) :
    (l.map (fun c => f c + g c)).sum = (l.map f).sum + (l.map g).sum := by
  induction l with
  | nil => rfl
  | cons b t ih => simp [ih]; omega

/-- Value `sum(counts.values())` of the script's counts dictionary over `l`
equals the number of symbols counted, that is `l.length`. -/
lemma sumCounts_eq_length (l : List Char) : sumCounts l = l.length := by
  induction l with
  | nil => rfl
  | cons a t ih =>
    by_cases ha : a ∈ t
    · have hded : (a :: t).dedup = t.dedup := List.dedup_cons_of_mem ha
      have hcount : ∀ c : Char, (a :: t).count c = t.count c + (if c = a then 1 else 0) := by
        intro c
        rcases eq_or_ne c a with hca | hca
        · subst hca; simp [List.count_cons]
        · simp [List.count_cons, hca, Ne.symm hca]
      unfold sumCounts at ih ⊢
      rw [hded]
      calc (t.dedup.map (fun c => (a :: t).count c)).sum
          = (t.dedup.map (fun c => t.count c + (if c = a then 1 else 0))).sum := by
            simp only [hcount]
        _ = (t.dedup.map (fun c => t.count c)).sum
              + (t.dedup.map (fun c => if c = a then 1 else 0)).sum :=
            sum_map_add_distrib _ _ _
        _ = t.length + t.dedup.count a := by rw [ih, sum_map_ite_eq]
        _ = (a :: t).length := by
            rw [List.count_dedup]
            simp [ha]
    · have hded : (a :: t).dedup = a :: t.dedup := List.dedup_cons_of_not_mem ha
      have hcount : ∀ c : Char, (a :: t).count c = t.count c + (if c = a then 1 else 0) := by
        intro c
        rcases eq_or_ne c a with hca | hca
        · subst hca; simp [List.count_cons]
        · simp [List.count_cons, hca, Ne.symm hca]
      unfold sumCounts at ih ⊢
      rw [hded]
      have hat : t.count a = 0 := List.count_eq_zero.mpr ha
      have hadt : t.dedup.count a = 0 := by rw [List.count_dedup]; simp [ha]
      calc ((a :: t.dedup).map (fun c => (a :: t).count c)).sum
          = (a :: t).count a + (t.dedup.map (fun c => (a :: t).count c)).sum := by
            simp
        _ = (a :: t).count a + ((t.dedup.map (fun c => t.count c)).sum
              + (t.dedup.map (fun c => if c = a then 1 else 0)).sum) := by
            rw [show (t.dedup.map (fun c => (a :: t).count c)) =
                  (t.dedup.map (fun c => t.count c + (if c = a then 1 else 0))) by
                simp only [hcount],
              sum_map_add_distrib]
        _ = (a :: t).count a + (t.length + t.dedup.count a) := by rw [ih, sum_map_ite_eq]
        _ = (a :: t).length := by
            rw [hadt, hcount a, hat, if_pos rfl]
            simp only [List.length_cons]
            omega

/-- Counts of all symbols are bounded by `max(counts.values())`. -/
lemma count_le_maxCount (l : List Char) (c : Char) : l.count c ≤ maxCount l := by
  by_cases hc : c ∈ l
  · exact le_foldr_max (List.mem_map_of_mem _ (List.mem_dedup.mpr hc))
  · rw [List.count_eq_zero.mpr hc]; exact Nat.zero_le _

/-- On a nonempty list, `max(counts.values())` is the count of some member. -/
lemma maxCount_attained {l : List Char} (hl : l ≠ []) :
    ∃ c ∈ l, l.count c = maxCount l := by
  rcases foldr_max_mem (l.dedup.map (fun c => l.count c)) with h0 | hm
  · exfalso
    obtain ⟨a, ha⟩ := List.exists_mem_of_ne_nil l hl
    have h1 : 1 ≤ l.count a := List.one_le_count_iff.mpr ha
    have h2 := count_le_maxCount l a
    unfold maxCount at h2
    omega
  · obtain ⟨c, hc, hcc⟩ := List.mem_map.mp hm
    exact ⟨c, List.mem_dedup.mp hc, hcc⟩

/-- Value `max(counts.values())` never exceeds `sum(counts.values())`. -/
lemma maxCount_le_sumCounts (l : List Char) : maxCount l ≤ sumCounts l :=
  foldr_max_le_sum _

/-- Scores of single columns are nonnegative. -/
lemma colScore_nonneg (col : List Char) : 0 ≤ colScore col := by
  unfold colScore
  split
  · exact le_refl 0
  · positivity

/-- Scores of single columns never exceed one. -/
lemma colScore_le_one (col : List Char) : colScore col ≤ 1 := by
  unfold colScore
  split
  · exact zero_le_one
  · rename_i hne
    have hlen : 0 < (col.filter informativeB).length := List.length_pos.mpr hne
    have hsum : 0 < sumCounts (col.filter informativeB) := by
      rw [sumCounts_eq_length]; exact hlen
    rw [div_le_one (by exact_mod_cast hsum)]
    exact_mod_cast maxCount_le_sumCounts _

/-! ### Order facts for the descending tuple sort -/

/-- Boolean and propositional forms of the comparison agree. -/
lemma lexLt_iff {a b : ℚ × Int × Int} : lexLt a b = true ↔ lexLtP a b := by
  unfold lexLt
  exact decide_eq_true_iff

/-- Lexicographic comparison of the triples is transitive. -/
lemma lexLtP_trans {a b c : ℚ × Int × Int} (hab : lexLtP a b) (hbc : lexLtP b c) :
    lexLtP a c := by
  obtain ⟨a1, a2, a3⟩ := a
  obtain ⟨b1, b2, b3⟩ := b
  obtain ⟨c1, c2, c3⟩ := c
  unfold lexLtP at *
  dsimp only at *
  rcases hab with h1 | ⟨h1, hab2⟩
  · rcases hbc with g1 | ⟨g1, -⟩
    · exact Or.inl (h1.trans g1)
    · exact Or.inl (g1 ▸ h1)
  · subst h1
    rcases hbc with g1 | ⟨g1, hbc2⟩
    · exact Or.inl g1
    · subst g1
      refine Or.inr ⟨rfl, ?_⟩
      rcases hab2 with h2 | ⟨h2, h3⟩
      · rcases hbc2 with g2 | ⟨g2, -⟩
        · exact Or.inl (h2.trans g2)
        · exact Or.inl (g2 ▸ h2)
      · subst h2
        rcases hbc2 with g2 | ⟨g2, g3⟩
        · exact Or.inl g2
        · subst g2
          exact Or.inr ⟨rfl, h3.trans g3⟩

/-- Lexicographic comparison of the triples is total up to equality. -/
lemma lexLtP_total (a b : ℚ × Int × Int) : lexLtP a b ∨ a = b ∨ lexLtP b a := by
  obtain ⟨a1, a2, a3⟩ := a
  obtain ⟨b1, b2, b3⟩ := b
  unfold lexLtP
  dsimp only
  rcases lt_trichotomy a1 b1 with h1 | h1 | h1
  · exact Or.inl (Or.inl h1)
  · subst h1
    rcases lt_trichotomy a2 b2 with h2 | h2 | h2
    · exact Or.inl (Or.inr ⟨rfl, Or.inl h2⟩)
    · subst h2
      rcases lt_trichotomy a3 b3 with h3 | h3 | h3
      · exact Or.inl (Or.inr ⟨rfl, Or.inr ⟨rfl, h3⟩⟩)
      · subst h3; exact Or.inr (Or.inl rfl)
      · exact Or.inr (Or.inr (Or.inr ⟨rfl, Or.inr ⟨rfl, h3⟩⟩))
    · exact Or.inr (Or.inr (Or.inr ⟨rfl, Or.inl h2⟩))
  · exact Or.inr (Or.inr (Or.inl h1))

/-- Lexicographic comparison of the triples is irreflexive. -/
lemma lexLtP_irrefl (a : ℚ × Int × Int) : ¬ lexLtP a a := by
  obtain ⟨a1, a2, a3⟩ := a
  unfold lexLtP
  dsimp only
  rintro (h | ⟨-, h | ⟨-, h⟩⟩) <;> exact absurd h (by simp)

/-- Elements not below both of two comparison-ordered elements: the head of a
sorted list stays above everything the inserted element stays above. -/
lemma not_lexLtP_trans {x h y : ℚ × Int × Int}
    (hxh : ¬ lexLtP x h) (hhy : ¬ lexLtP h y) : ¬ lexLtP x y := by
  intro hxy
  rcases lexLtP_total x h with h1 | h1 | h1
  · exact hxh h1
  · subst h1; exact hhy hxy
  · exact hhy (lexLtP_trans h1 hxy)

/-- Inserting into a list permutes consing onto it. -/
lemma insertDesc_perm (x : ℚ × Int × Int) (l : List (ℚ × Int × Int)) :
    List.Perm (insertDesc x l) (x :: l) := by
  induction l with
  | nil => exact List.Perm.refl _
  | cons h t ih =>
    unfold insertDesc
    split
    · exact ((ih.cons h).trans (List.Perm.swap x h t))
    · exact List.Perm.refl _

/-- The sort is a permutation of its input. -/
lemma sortDesc_perm (l : List (ℚ × Int × Int)) : List.Perm (sortDesc l) l := by
  induction l with
  | nil => exact List.Perm.refl _
  | cons h t ih => exact (insertDesc_perm h (sortDesc t)).trans (ih.cons h)

/-- Inserting preserves the descending arrangement. -/
lemma insertDesc_pairwise {x : ℚ × Int × Int} {l : List (ℚ × Int × Int)}
    (hl : l.Pairwise (fun a b => ¬ lexLtP a b)) :
    (insertDesc x l).Pairwise (fun a b => ¬ lexLtP a b) := by
  induction l with
  | nil =>
    unfold insertDesc
    exact List.pairwise_cons.mpr ⟨fun y hy => absurd hy (List.not_mem_nil y), List.Pairwise.nil⟩
  | cons h t ih =>
    rw [List.pairwise_cons] at hl
    unfold insertDesc
    split
    · rename_i hxh
      have hxh' : lexLtP x h := lexLt_iff.mp hxh
      rw [List.pairwise_cons]
      constructor
      · intro y hy
        rcases List.mem_cons.mp ((insertDesc_perm x t).mem_iff.mp hy) with hyx | hyt
        · subst hyx
          intro hcon
          exact lexLtP_irrefl _ (lexLtP_trans hxh' hcon)
        · exact hl.1 y hyt
      · exact ih hl.2
    · rename_i hxh
      have hxh' : ¬ lexLtP x h := fun hc => hxh (lexLt_iff.mpr hc)
      rw [List.pairwise_cons]
      constructor
      · intro y hy
        rcases List.mem_cons.mp hy with hyh | hyt
        · subst hyh; exact hxh'
        · exact not_lexLtP_trans hxh' (hl.1 y hyt)
      · exact List.Pairwise.cons hl.1 hl.2

/-- The sort arranges the triples in descending lexicographic order. -/
lemma sortDesc_pairwise (l : List (ℚ × Int × Int)) :
    (sortDesc l).Pairwise (fun a b => ¬ lexLtP a b) := by
  induction l with
  | nil => exact List.Pairwise.nil
  | cons h t ih => exact insertDesc_pairwise ih

/-! ### Shape of the scanner's result -/

/-- Successful results of the scanner are the sorted window triples. -/
lemma compute_ok {rows : List (List Char)} {window_size : Int}
    {l : List (ℚ × Int × Int)}
    (h : compute_mean_conservation rows window_size = .ok l) :
    l = sortDesc (windowTriples rows window_size) := by
  unfold compute_mean_conservation at h
  split at h
  · cases h
  · cases h; rfl

/-- Members of the unsorted triple list come from the enumeration loop. -/
lemma mem_windowTriples {rows : List (List Char)} {window_size : Int}
    {t : ℚ × Int × Int} (h : t ∈ windowTriples rows window_size) :
    ∃ i : Nat, i < ((alnLength rows : Int) - window_size + 1).toNat ∧
      t = (windowScore rows window_size i, (i : Int) + 1, (i : Int) + window_size) := by
  unfold windowTriples at h
  obtain ⟨i, hi, ht⟩ := List.mem_map.mp h
  exact ⟨i, List.mem_range.mp hi, ht.symm⟩

/-- Starts of distinct enumerated windows differ. -/
lemma windowTriples_start_ne (rows : List (List Char)) (window_size : Int) :
    (windowTriples rows window_size).Pairwise (fun a b => a.2.1 ≠ b.2.1) := by
  unfold windowTriples
  rw [List.pairwise_map]
  exact (List.pairwise_lt_range _).imp (by intro a b hab; dsimp only; omega)

/-- Successful runs never carry width zero: a zero width always reaches the
division `sum(window_conservation) / window_size` and raises. -/
lemma compute_ok_W_ne_zero {rows : List (List Char)} {window_size : Int}
    {l : List (ℚ × Int × Int)}
    (h : compute_mean_conservation rows window_size = .ok l) : window_size ≠ 0 := by
  intro h0
  subst h0
  unfold compute_mean_conservation at h
  rw [if_pos ⟨rfl, by omega⟩] at h
  cases h

/-! ### The claims -/

/-- C1: for every column, the per-column conservation score equals
count(most frequent informative symbol) / count(informative symbols), where
the informative symbols are all symbols except `-`, `X`, `B`, `J`, `Z`; and
for every column whose informative subset is empty, the column score is 0. -/
theorem col_score_spec (col : List Char) :
    (col.filter informativeB = [] → colScore col = 0) ∧
    (col.filter informativeB ≠ [] →
      ∃ m : Nat,
        (∃ c ∈ col, informativeB c = true ∧ col.count c = m) ∧
        (∀ c : Char, informativeB c = true → col.count c ≤ m) ∧
        colScore col = (m : ℚ) / ((col.filter informativeB).length : ℚ)) := by
  constructor
  · intro h
    simp [colScore, h]
  · intro h
    refine ⟨maxCount (col.filter informativeB), ?_, ?_, ?_⟩
    · obtain ⟨c, hc, hcc⟩ := maxCount_attained h
      refine ⟨c, (List.mem_filter.mp hc).1, (List.mem_filter.mp hc).2, ?_⟩
      rw [← List.count_filter (p := informativeB) (List.mem_filter.mp hc).2]
      exact hcc
    · intro c hc
      rw [← List.count_filter (p := informativeB) hc]
      exact count_le_maxCount _ c
    · unfold colScore
      rw [if_neg h, sumCounts_eq_length]

/-- Witness for C1: the all-uninformative column `-X` scores 0, and the
column `AAC-` attains the spec formula with most-frequent count 2 over 3
informative symbols. -/
theorem col_score_spec_witness :
    colScore ['-', 'X'] = 0 ∧
    (∃ m : Nat,
      (∃ c ∈ (['A', 'A', 'C', '-'] : List Char), informativeB c = true ∧
        (['A', 'A', 'C', '-'] : List Char).count c = m) ∧
      (∀ c : Char, informativeB c = true → (['A', 'A', 'C', '-'] : List Char).count c ≤ m) ∧
      colScore ['A', 'A', 'C', '-'] =
        (m : ℚ) / (((['A', 'A', 'C', '-'] : List Char).filter informativeB).length : ℚ)) :=
  ⟨(col_score_spec ['-', 'X']).1 (by decide),
   (col_score_spec ['A', 'A', 'C', '-']).2 (by decide)⟩

/-- C2: every triple the scanner reports carries as score the arithmetic mean
of the per-column conservation scores of the window's columns, which cover
exactly the `window_size` 0-based positions `[start-1, start-1+window_size)`. -/
theorem window_score_is_mean (rows : List (List Char)) (window_size : Int)
    (l : List (ℚ × Int × Int))
    (h : compute_mean_conservation rows window_size = .ok l)
    (hW : 1 ≤ window_size) (t : ℚ × Int × Int) (ht : t ∈ l) :
    ∃ s : Nat, t.2.1 = (s : Int) + 1 ∧
      (((List.range' s window_size.toNat).map
          (fun j => colScore (column rows j))).length : Int) = window_size ∧
      t.1 = ((List.range' s window_size.toNat).map
          (fun j => colScore (column rows j))).sum /
        (((List.range' s window_size.toNat).map
          (fun j => colScore (column rows j))).length : ℚ) := by
  obtain ⟨i, hi, hti⟩ := mem_windowTriples ((sortDesc_perm _).subset (compute_ok h ▸ ht))
  have hcast : ((window_size.toNat : Int)) = window_size :=
    Int.toNat_of_nonneg (le_trans zero_le_one hW)
  refine ⟨i, by rw [hti], ?_, ?_⟩
  · rw [List.length_map, List.length_range']
    exact hcast
  · rw [hti]
    unfold windowScore
    dsimp only
    rw [List.length_map, List.length_range']
    congr 1
    rw [← hcast]
    norm_cast

/-- Witness for C2 on a two-row alignment of length 2 with width 1: the
top-ranked triple `(1, 2, 2)` decomposes as required. -/
theorem window_score_is_mean_witness :
    ∃ s : Nat, (((1 : ℚ), ((2 : Int), (2 : Int))).2.1) = (s : Int) + 1 ∧
      (((List.range' s (1 : Int).toNat).map
          (fun j => colScore (column [['A', 'C'], ['A', 'C']] j))).length : Int) = 1 ∧
      ((1 : ℚ), ((2 : Int), (2 : Int))).1 =
        ((List.range' s (1 : Int).toNat).map
          (fun j => colScore (column [['A', 'C'], ['A', 'C']] j))).sum /
        (((List.range' s (1 : Int).toNat).map
          (fun j => colScore (column [['A', 'C'], ['A', 'C']] j))).length : ℚ) := by
  have hok : compute_mean_conservation [['A', 'C'], ['A', 'C']] 1
      = .ok [(1, 2, 2), (1, 1, 1)] := by
    simp +decide [compute_mean_conservation, windowTriples, windowScore, colScore,
      alnLength, column, sortDesc, insertDesc, lexLt, lexLtP, maxCount, sumCounts,
      List.range_succ, List.range']
  exact window_score_is_mean [['A', 'C'], ['A', 'C']] 1 _ hok (by decide)
    ((1 : ℚ), ((2 : Int), (2 : Int))) (List.mem_cons_self _ _)

/-- C3: for `1 ≤ W ≤ L` the scanner returns exactly `L−W+1` windows, each of
width exactly `W`, with 1-based inclusive coordinates `(s+1, s+W)`; the starts
form the contiguous run `1..L−W+1` (up to the ranking's permutation) and each
end is determined as `start + W − 1`. -/
theorem scanner_window_enumeration (rows : List (List Char)) (window_size : Int)
    (hW : 1 ≤ window_size) (hWL : window_size ≤ (alnLength rows : Int)) :
    ∃ l, compute_mean_conservation rows window_size = .ok l ∧
      (l.length : Int) = (alnLength rows : Int) - window_size + 1 ∧
      (∀ t ∈ l, t.2.2 - t.2.1 + 1 = window_size ∧
        1 ≤ t.2.1 ∧ t.2.1 ≤ (alnLength rows : Int) - window_size + 1 ∧
        t.2.2 = t.2.1 + window_size - 1) ∧
      List.Perm (l.map (fun t => t.2.1))
        ((List.range ((alnLength rows : Int) - window_size + 1).toNat).map
          (fun i : Nat => (i : Int) + 1)) := by
  refine ⟨sortDesc (windowTriples rows window_size), ?_, ?_, ?_, ?_⟩
  · unfold compute_mean_conservation
    rw [if_neg ?_]
    rintro ⟨h0, -⟩
    omega
  · rw [(sortDesc_perm _).length_eq]
    unfold windowTriples
    rw [List.length_map, List.length_range]
    omega
  · intro t ht
    obtain ⟨i, hi, hti⟩ := mem_windowTriples ((sortDesc_perm _).subset ht)
    rw [hti]
    dsimp only
    have hi' : (i : Int) < (alnLength rows : Int) - window_size + 1 := by omega
    refine ⟨by ring, by omega, by omega, by ring⟩
  · refine ((sortDesc_perm _).map _).trans ?_
    unfold windowTriples
    rw [List.map_map]
    exact List.Perm.refl _

/-- Witness for C3 on a two-row alignment of length 2 and width 1. -/
theorem scanner_window_enumeration_witness :
    ∃ l, compute_mean_conservation [['A', 'C'], ['A', 'C']] 1 = .ok l ∧
      (l.length : Int) = (alnLength [['A', 'C'], ['A', 'C']] : Int) - 1 + 1 ∧
      (∀ t ∈ l, t.2.2 - t.2.1 + 1 = 1 ∧
        1 ≤ t.2.1 ∧ t.2.1 ≤ (alnLength [['A', 'C'], ['A', 'C']] : Int) - 1 + 1 ∧
        t.2.2 = t.2.1 + 1 - 1) ∧
      List.Perm (l.map (fun t => t.2.1))
        ((List.range ((alnLength [['A', 'C'], ['A', 'C']] : Int) - 1 + 1).toNat).map
          (fun i : Nat => (i : Int) + 1)) :=
  scanner_window_enumeration [['A', 'C'], ['A', 'C']] 1 (by decide) (by decide)

/-- C4: the returned list is sorted non-increasing by score: any two adjacent
entries satisfy `score[i] >= score[i+1]`. -/
theorem ranked_output_sorted (rows : List (List Char)) (window_size : Int)
    (l : List (ℚ × Int × Int))
    (h : compute_mean_conservation rows window_size = .ok l) :
    List.Chain' (fun a b => b.1 ≤ a.1) l := by
  rw [compute_ok h]
  refine List.Pairwise.chain' ?_
  refine (sortDesc_pairwise _).imp ?_
  intro a b hab
  by_contra hlt
  push_neg at hlt
  exact hab (Or.inl hlt)

/-- Witness for C4: adjacent scores of the concrete ranked output are
non-increasing. -/
theorem ranked_output_sorted_witness :
    List.Chain' (fun a b : ℚ × Int × Int => b.1 ≤ a.1)
      [((3 : ℚ)/4, (1 : Int), (2 : Int)), ((1 : ℚ)/4, (2 : Int), (3 : Int))] := by
  have hok : compute_mean_conservation [['A', 'A', 'B'], ['A', 'C', 'B']] 2
      = .ok [(3/4, 1, 2), (1/4, 2, 3)] := by
    simp +decide [compute_mean_conservation, windowTriples, windowScore, colScore,
      alnLength, column, sortDesc, insertDesc, lexLt, lexLtP, maxCount, sumCounts,
      List.range_succ, List.range']
    norm_num
  exact ranked_output_sorted [['A', 'A', 'B'], ['A', 'C', 'B']] 2 _ hok

/-- C6 counterexample: width `-1` is non-positive, yet the scanner does not
fail at all: it succeeds and returns four degenerate windows. -/
theorem nonpositive_width_no_failure :
    compute_mean_conservation [['A', 'A']] (-1)
      = .ok [(0, 4, 2), (0, 3, 1), (0, 2, 0), (0, 1, -1)] := by
  simp +decide [compute_mean_conservation, windowTriples, windowScore, colScore,
    alnLength, column, sortDesc, insertDesc, lexLt, lexLtP, maxCount, sumCounts,
    List.range_succ]

/-- C6 amended: the scanner does not validate the window width. Width 0
always fails, but with a division-by-zero error rather than an invalid-
argument failure; negative widths do not fail at all and instead return
`L − W + 1` degenerate windows, each scoring 0. -/
theorem window_width_unvalidated (rows : List (List Char)) (window_size : Int) :
    (window_size = 0 →
      compute_mean_conservation rows window_size = .error .zeroDivisionError) ∧
    (window_size < 0 →
      ∃ l, compute_mean_conservation rows window_size = .ok l ∧
        (l.length : Int) = (alnLength rows : Int) - window_size + 1 ∧
        ∀ t ∈ l, t.1 = 0) := by
  constructor
  · intro h0
    subst h0
    unfold compute_mean_conservation
    rw [if_pos ⟨rfl, by omega⟩]
  · intro hneg
    refine ⟨sortDesc (windowTriples rows window_size), ?_, ?_, ?_⟩
    · unfold compute_mean_conservation
      rw [if_neg ?_]
      rintro ⟨h0, -⟩
      omega
    · rw [(sortDesc_perm _).length_eq]
      unfold windowTriples
      rw [List.length_map, List.length_range]
      omega
    · intro t ht
      obtain ⟨i, -, hti⟩ := mem_windowTriples ((sortDesc_perm _).subset ht)
      rw [hti]
      unfold windowScore
      dsimp only
      rw [Int.toNat_of_nonpos (le_of_lt hneg)]
      simp

/-- Witness for C6's amended statement at a one-row alignment. -/
theorem window_width_unvalidated_witness :
    compute_mean_conservation [['A']] 0 = .error .zeroDivisionError ∧
    ∃ l, compute_mean_conservation [['A']] (-1) = .ok l ∧
      (l.length : Int) = (alnLength [['A']] : Int) - (-1) + 1 ∧
      ∀ t ∈ l, t.1 = 0 :=
  ⟨(window_width_unvalidated [['A']] 0).1 rfl,
   (window_width_unvalidated [['A']] (-1)).2 (by decide)⟩

/-- C7: a width strictly larger than the alignment length yields the empty
result set and no error. -/
theorem wide_window_empty (rows : List (List Char)) (window_size : Int)
    (h : (alnLength rows : Int) < window_size) :
    compute_mean_conservation rows window_size = .ok [] := by
  have hn : ((alnLength rows : Int) - window_size + 1).toNat = 0 := by omega
  unfold compute_mean_conservation
  rw [if_neg ?_]
  · unfold windowTriples
    rw [hn]
    rfl
  · rintro ⟨h0, -⟩
    omega

/-- Witness for C7 with window width 3 on an alignment of length 2. -/
theorem wide_window_empty_witness :
    compute_mean_conservation [['A', 'A']] 3 = .ok [] :=
  wide_window_empty [['A', 'A']] 3 (by decide)

/-- Sums of lists of rationals bounded by one are bounded by the length. -/
lemma sum_le_length_of_le_one {l : List ℚ} (h : ∀ x ∈ l, x ≤ 1) :
    l.sum ≤ (l.length : ℚ) := by
  induction l with
  | nil => simp
  | cons a t ih =>
    rw [List.sum_cons, List.length_cons]
    push_cast
    have ha := h a (List.mem_cons_self a t)
    have ht := ih (fun x hx => h x (List.mem_cons_of_mem a hx))
    linarith

/-- Sums of lists of ones equal the length. -/
lemma sum_of_ones {l : List ℚ} (h : ∀ x ∈ l, x = 1) : l.sum = (l.length : ℚ) := by
  induction l with
  | nil => simp
  | cons a t ih =>
    rw [List.sum_cons, List.length_cons, h a (List.mem_cons_self a t),
      ih (fun x hx => h x (List.mem_cons_of_mem a hx))]
    push_cast
    ring

/-- Columns holding one informative symbol in every row score exactly 1. -/
lemma colScore_const {col : List Char} {c : Char} (hne : col ≠ [])
    (hall : ∀ x ∈ col, x = c) (hc : informativeB c = true) : colScore col = 1 := by
  have hfilter : col.filter informativeB = col :=
    List.filter_eq_self.mpr (fun a ha => (hall a ha) ▸ hc)
  have hcount : col.count c = col.length :=
    List.count_eq_length.mpr (fun b hb => by rw [hall b hb])
  have h2 : col.length ≤ maxCount col := hcount ▸ count_le_maxCount col c
  have h3 : sumCounts col = col.length := sumCounts_eq_length col
  have hmax : maxCount col = col.length :=
    le_antisymm (h3 ▸ maxCount_le_sumCounts col) h2
  have hpos : 0 < col.length := List.length_pos.mpr hne
  unfold colScore
  rw [hfilter, if_neg hne, hmax, h3]
  rw [div_self]
  exact Nat.cast_ne_zero.mpr (by omega)

/-- C8: every reported score lies in `[0, 1]`, and a window all of whose
columns hold a single informative symbol shared by all sequences scores
exactly 1. -/
theorem score_in_unit_interval (rows : List (List Char)) (window_size : Int)
    (l : List (ℚ × Int × Int))
    (h : compute_mean_conservation rows window_size = .ok l)
    (t : ℚ × Int × Int) (ht : t ∈ l) :
    (0 ≤ t.1 ∧ t.1 ≤ 1) ∧
    (1 ≤ window_size →
      (∀ j : Nat, t.2.1 - 1 ≤ (j : Int) → (j : Int) < t.2.2 →
        ∃ c : Char, informativeB c = true ∧ column rows j ≠ [] ∧
          ∀ x ∈ column rows j, x = c) →
      t.1 = 1) := by
  obtain ⟨i, hi, hti⟩ := mem_windowTriples ((sortDesc_perm _).subset (compute_ok h ▸ ht))
  have hWne : window_size ≠ 0 := compute_ok_W_ne_zero h
  constructor
  · rw [hti]
    unfold windowScore
    dsimp only
    rcases lt_or_gt_of_ne hWne with hneg | hpos
    · rw [Int.toNat_of_nonpos (le_of_lt hneg)]
      simp
    · have hWq : (0 : ℚ) < (window_size : ℚ) := by exact_mod_cast hpos
      constructor
      · apply div_nonneg _ (le_of_lt hWq)
        apply List.sum_nonneg
        intro x hx
        obtain ⟨j, -, hj⟩ := List.mem_map.mp hx
        exact hj ▸ colScore_nonneg _
      · rw [div_le_one hWq]
        have hb : ((List.range' i window_size.toNat).map
            (fun j => colScore (column rows j))).sum
            ≤ (((List.range' i window_size.toNat).map
                (fun j => colScore (column rows j))).length : ℚ) := by
          apply sum_le_length_of_le_one
          intro x hx
          obtain ⟨j, -, hj⟩ := List.mem_map.mp hx
          exact hj ▸ colScore_le_one _
        rw [List.length_map, List.length_range'] at hb
        refine le_trans hb ?_
        have hcastW : ((window_size.toNat : Int)) = window_size :=
          Int.toNat_of_nonneg (by omega)
        exact_mod_cast le_of_eq hcastW
  · intro hW hcols
    rw [hti] at hcols ⊢
    dsimp only at hcols ⊢
    unfold windowScore
    have hone : ∀ x ∈ (List.range' i window_size.toNat).map
        (fun j => colScore (column rows j)), x = 1 := by
      intro x hx
      obtain ⟨j, hjmem, hj⟩ := List.mem_map.mp hx
      rw [List.mem_range'_1] at hjmem
      have hj1 : (i : Int) + 1 - 1 ≤ (j : Int) := by omega
      have hj2 : (j : Int) < (i : Int) + window_size := by
        have := hjmem.2
        have hcastW : ((window_size.toNat : Int)) = window_size :=
          Int.toNat_of_nonneg (by omega)
        omega
      obtain ⟨c, hcinf, hcne, hcall⟩ := hcols j hj1 hj2
      rw [← hj]
      exact colScore_const hcne hcall hcinf
    rw [sum_of_ones hone, List.length_map, List.length_range']
    rw [div_eq_one_iff_eq (by exact_mod_cast hWne)]
    have hcastW : ((window_size.toNat : Int)) = window_size :=
      Int.toNat_of_nonneg (by omega)
    exact_mod_cast hcastW

/-- Witness for C8: on a fully conserved two-row alignment both bounds hold
and the score is exactly 1. -/
theorem score_in_unit_interval_witness :
    (0 ≤ ((1 : ℚ), ((2 : Int), (2 : Int))).1 ∧ ((1 : ℚ), ((2 : Int), (2 : Int))).1 ≤ 1) ∧
    ((1 : ℚ), ((2 : Int), (2 : Int))).1 = 1 := by
  have hok : compute_mean_conservation [['A', 'C'], ['A', 'C']] 1
      = .ok [(1, 2, 2), (1, 1, 1)] := by
    simp +decide [compute_mean_conservation, windowTriples, windowScore, colScore,
      alnLength, column, sortDesc, insertDesc, lexLt, lexLtP, maxCount, sumCounts,
      List.range_succ, List.range']
  have h := score_in_unit_interval [['A', 'C'], ['A', 'C']] 1 _ hok
    ((1 : ℚ), ((2 : Int), (2 : Int))) (List.mem_cons_self _ _)
  refine ⟨h.1, h.2 (by decide) ?_⟩
  intro j h1 h2
  dsimp only at h1 h2
  have hj : j = 1 := by omega
  subst hj
  exact ⟨'C', by decide, by decide, by decide⟩

/-- C9: two runs of the scanner on identical alignment and width produce
identical ranked output and identical consensus sequences. -/
theorem scanner_deterministic (rows₁ rows₂ : List (List Char))
    (w₁ w₂ : Int) (hr : rows₁ = rows₂) (hw : w₁ = w₂) :
    run_scanner rows₁ w₁ = run_scanner rows₂ w₂ := by
  subst hr
  subst hw
  rfl

/-- Witness for C9 at a concrete alignment and width. -/
theorem scanner_deterministic_witness :
    run_scanner [['A', 'C'], ['A', 'C']] 1 = run_scanner [['A', 'C'], ['A', 'C']] 1 :=
  scanner_deterministic [['A', 'C'], ['A', 'C']] [['A', 'C'], ['A', 'C']] 1 1 rfl rfl

/-- C10: the ranked output is ordered by the lexicographic descending order of
the `(score, start, end)` triples; in particular, of two windows with equal
scores the one with the larger 1-based start appears earlier. -/
theorem tie_break_desc_start (rows : List (List Char)) (window_size : Int)
    (l : List (ℚ × Int × Int))
    (h : compute_mean_conservation rows window_size = .ok l) :
    List.Pairwise (fun a b : ℚ × Int × Int =>
      b.1 < a.1 ∨ (a.1 = b.1 ∧ b.2.1 < a.2.1)) l := by
  rw [compute_ok h]
  have h1 := sortDesc_pairwise (windowTriples rows window_size)
  have h2 : (sortDesc (windowTriples rows window_size)).Pairwise
      (fun a b : ℚ × Int × Int => a.2.1 ≠ b.2.1) := by
    refine (List.Perm.pairwise_iff ?_ (sortDesc_perm _)).mpr
      (windowTriples_start_ne rows window_size)
    intro x y hxy
    exact hxy.symm
  refine (h1.and h2).imp ?_
  rintro a b ⟨hnlt, hne⟩
  rcases lt_trichotomy a.1 b.1 with hs | hs | hs
  · exact absurd (Or.inl hs) hnlt
  · rcases lt_trichotomy a.2.1 b.2.1 with hp | hp | hp
    · exact absurd (Or.inr ⟨hs, Or.inl hp⟩) hnlt
    · exact absurd hp hne
    · exact Or.inr ⟨hs, hp⟩
  · exact Or.inl hs

/-- Witness for C10: the two equal-scoring windows of a fully conserved
alignment appear with the larger start first. -/
theorem tie_break_desc_start_witness :
    List.Pairwise (fun a b : ℚ × Int × Int =>
      b.1 < a.1 ∨ (a.1 = b.1 ∧ b.2.1 < a.2.1))
      [((1 : ℚ), (2 : Int), (2 : Int)), ((1 : ℚ), (1 : Int), (1 : Int))] := by
  have hok : compute_mean_conservation [['A', 'C'], ['A', 'C']] 1
      = .ok [(1, 2, 2), (1, 1, 1)] := by
    simp +decide [compute_mean_conservation, windowTriples, windowScore, colScore,
      alnLength, column, sortDesc, insertDesc, lexLt, lexLtP, maxCount, sumCounts,
      List.range_succ, List.range']
  exact tie_break_desc_start [['A', 'C'], ['A', 'C']] 1 _ hok

/-- Alignments whose rows all share one length have that alignment length. -/
lemma alnLength_const {rows : List (List Char)} {n : Nat} (hne : rows ≠ [])
    (hlen : ∀ r ∈ rows, r.length = n) : alnLength rows = n := by
  induction rows with
  | nil => cases hne rfl
  | cons r t ih =>
    have hr := hlen r (List.mem_cons_self r t)
    unfold alnLength
    rw [List.map_cons, List.foldr_cons]
    rcases eq_or_ne t [] with ht | ht
    · subst ht
      rw [hr]
      simp
    · have hrec := ih ht (fun r' hr' => hlen r' (List.mem_cons_of_mem _ hr'))
      unfold alnLength at hrec
      rw [hrec, hr, max_self]

/-- Columns of a slice are columns of the whole alignment shifted by the
slice start, for positions inside the slice. -/
lemma column_slice (rows : List (List Char)) (a w k : Nat) (hk : k < w) :
    column (sliceCols rows a (a + w)) k = column rows (a + k) := by
  unfold column sliceCols
  rw [List.filterMap_map]
  apply List.filterMap_congr
  intro r _
  show ((r.drop a).take (a + w - a)).get? k = r.get? (a + k)
  rw [Nat.add_sub_cancel_left, List.get?_eq_getElem?, List.get?_eq_getElem?,
    List.getElem?_take, if_pos hk, List.getElem?_drop]

/-- Slices of an equal-length alignment have the slice width as length. -/
lemma sliceCols_alnLength {rows : List (List Char)} {L a w : Nat} (hne : rows ≠ [])
    (hlen : ∀ r ∈ rows, r.length = L) (hbound : a + w ≤ L) :
    alnLength (sliceCols rows a (a + w)) = w := by
  apply alnLength_const
  · unfold sliceCols
    intro hmap
    exact hne (List.map_eq_nil_iff.mp hmap)
  · intro r' hr'
    obtain ⟨r, hr, hrr⟩ := List.mem_map.mp hr'
    subst hrr
    rw [List.length_take, List.length_drop, Nat.add_sub_cancel_left, hlen r hr]
    omega

/-- Consensus positions are the ambiguous placeholder or an informative
symbol. -/
lemma consensusCol_shape (thr : ℚ) (amb : Char) (col : List Char) :
    consensusCol thr amb col = amb ∨ informativeB (consensusCol thr amb col) = true := by
  unfold consensusCol
  cases hm : majoritySymbol col with
  | none => exact Or.inl rfl
  | some m =>
    dsimp only
    split
    · right
      unfold majoritySymbol at hm
      have hmem := List.mem_of_find?_eq_some hm
      exact (List.mem_filter.mp (List.mem_dedup.mp hmem)).2
    · exact Or.inl rfl

/-- C5: for every reported window of a well-formed alignment, the derived
consensus sequence has length exactly `W`; each of its positions is the
per-column majority-with-threshold consensus symbol of the corresponding
column of the window's slice — which is the corresponding column of the
alignment — and every position is the ambiguous placeholder `X` or an
informative alphabet symbol. -/
theorem consensus_shape (rows : List (List Char)) (window_size : Int)
    (l : List (ℚ × Int × Int)) (hne : rows ≠ [])
    (hlen : ∀ r ∈ rows, r.length = alnLength rows)
    (hW : 1 ≤ window_size)
    (h : compute_mean_conservation rows window_size = .ok l)
    (t : ℚ × Int × Int) (ht : t ∈ l) :
    ((window_consensus rows t.2.1 t.2.2).length : Int) = window_size ∧
    (∀ k : Nat, k < (window_consensus rows t.2.1 t.2.2).length →
      (window_consensus rows t.2.1 t.2.2).getD k 'X'
        = consensusCol (7/10) 'X' (column rows ((t.2.1 - 1).toNat + k))) ∧
    (∀ c ∈ window_consensus rows t.2.1 t.2.2, c = 'X' ∨ informativeB c = true) := by
  obtain ⟨i, hi, hti⟩ := mem_windowTriples ((sortDesc_perm _).subset (compute_ok h ▸ ht))
  have hWn : ((window_size.toNat : Int)) = window_size :=
    Int.toNat_of_nonneg (by omega)
  have hiL : (i : Int) < (alnLength rows : Int) - window_size + 1 := by
    rw [← Int.lt_toNat]
    exact hi
  have hbound : i + window_size.toNat ≤ alnLength rows := by omega
  have hs1 : (t.2.1 - 1).toNat = i := by rw [hti]; dsimp only; omega
  have he : t.2.2.toNat = i + window_size.toNat := by rw [hti]; dsimp only; omega
  have hwc : window_consensus rows t.2.1 t.2.2
      = dumb_consensus (sliceCols rows i (i + window_size.toNat)) (7/10) 'X' := by
    unfold window_consensus
    rw [hs1, he]
  have hslice : alnLength (sliceCols rows i (i + window_size.toNat)) = window_size.toNat :=
    sliceCols_alnLength hne hlen hbound
  have hdc : dumb_consensus (sliceCols rows i (i + window_size.toNat)) (7/10) 'X'
      = (List.range window_size.toNat).map
          (fun j => consensusCol (7/10) 'X'
            (column (sliceCols rows i (i + window_size.toNat)) j)) := by
    unfold dumb_consensus
    rw [hslice]
  rw [hwc, hdc]
  refine ⟨?_, ?_, ?_⟩
  · rw [List.length_map, List.length_range]
    exact hWn
  · intro k hk
    rw [List.length_map, List.length_range] at hk
    rw [List.getD_eq_getElem _ _ (by simpa using hk), List.getElem_map, List.getElem_range,
      column_slice rows i window_size.toNat k hk, hs1]
  · intro c hc
    obtain ⟨j, -, hj⟩ := List.mem_map.mp hc
    rw [← hj]
    exact consensusCol_shape _ _ _

/-- Witness for C5: the top window of a fully conserved alignment has the
one-symbol consensus `C`. -/
theorem consensus_shape_witness :
    ((window_consensus [['A', 'C'], ['A', 'C']] 2 2).length : Int) = 1 ∧
    (∀ k : Nat, k < (window_consensus [['A', 'C'], ['A', 'C']] 2 2).length →
      (window_consensus [['A', 'C'], ['A', 'C']] 2 2).getD k 'X'
        = consensusCol (7/10) 'X'
            (column [['A', 'C'], ['A', 'C']] (((2 : Int) - 1).toNat + k))) ∧
    (∀ c ∈ window_consensus [['A', 'C'], ['A', 'C']] 2 2,
      c = 'X' ∨ informativeB c = true) := by
  have hok : compute_mean_conservation [['A', 'C'], ['A', 'C']] 1
      = .ok [(1, 2, 2), (1, 1, 1)] := by
    simp +decide [compute_mean_conservation, windowTriples, windowScore, colScore,
      alnLength, column, sortDesc, insertDesc, lexLt, lexLtP, maxCount, sumCounts,
      List.range_succ, List.range']
  exact consensus_shape [['A', 'C'], ['A', 'C']] 1 _ (by decide) (by decide) (by decide)
    hok ((1 : ℚ), ((2 : Int), (2 : Int))) (List.mem_cons_self _ _)

end FluScan
